import Mathlib

/-
Verification of the frame-extraction and demuxing pipeline of the
zhipu-video-sdk Go repository.

Bytes are modelled as `Nat` values (0..255); byte buffers as `List Nat`.
The JPEG markers are SOI = 0xFF 0xD8 = [255, 216] and EOI = 0xFF 0xD9 =
[255, 217].

Source correspondence:
  * `indexOfPair a b l` models Go `bytes.Index(l, []byte{a, b})`
    (first index of the two-byte pattern, `none` when absent).
  * `scanFrames` models the scan loop of `splitJPEGFrames`
    (processor/video_processor.go lines 165-201 and the identical copy in
    the StreamProcessor file lines 210-246), expressed on the suffix
    `data[i:]` instead of the absolute cursor `i`.
  * `scanPositionsAux` models the first (boundary-scan) pass of
    `splitJPEGFramesConcurrent` (video_processor.go lines 204-277) with
    its absolute offsets; the worker-pool second pass writes
    `data[pos.start:pos.end]` into the slot `pos.index`, which is
    deterministic because every slot is written exactly once, so the
    concurrent result is modelled as a `map` over the positions.
-/

namespace ZhipuSDK

/-- Index of the first occurrence of the two-byte pattern `[a, b]` in `l`,
modelling Go `bytes.Index(l, []byte{a, b})`; `none` when the pattern does
not occur (Go returns -1). -/
def indexOfPair (a b : Nat) : List Nat → Option Nat
  | x :: y :: rest =>
      if x = a ∧ y = b then some 0
      else (indexOfPair a b (y :: rest)).map (· + 1)
  | _ => none

theorem indexOfPair_nil (a b : Nat) : indexOfPair a b [] = none := rfl

theorem indexOfPair_single (a b x : Nat) : indexOfPair a b [x] = none := rfl

theorem indexOfPair_cons₂ (a b x y : Nat) (rest : List Nat) :
    indexOfPair a b (x :: y :: rest) =
      if x = a ∧ y = b then some 0
      else (indexOfPair a b (y :: rest)).map (· + 1) := rfl

/-- A found index leaves room for the two pattern bytes. -/
theorem indexOfPair_bound {a b p : Nat} :
    ∀ {l : List Nat}, indexOfPair a b l = some p → p + 2 ≤ l.length := by
  intro l
  induction l generalizing p with
  | nil => intro h; simp [indexOfPair] at h
  | cons x t ih =>
    cases t with
    | nil => intro h; simp [indexOfPair] at h
    | cons y rest =>
      intro h
      rw [indexOfPair_cons₂] at h
      by_cases hxy : x = a ∧ y = b
      · rw [if_pos hxy] at h
        have hp : p = 0 := by simpa using h.symm
        subst hp
        simp [List.length_cons]
      · rw [if_neg hxy] at h
        simp only [Option.map_eq_some'] at h
        obtain ⟨p', hp', hpe⟩ := h
        have := ih hp'
        simp [List.length_cons] at this ⊢
        omega

/-- The two bytes at a found index are the pattern. -/
theorem indexOfPair_pair {a b p : Nat} :
    ∀ {l : List Nat}, indexOfPair a b l = some p → (l.drop p).take 2 = [a, b] := by
  intro l
  induction l generalizing p with
  | nil => intro h; simp [indexOfPair] at h
  | cons x t ih =>
    cases t with
    | nil => intro h; simp [indexOfPair] at h
    | cons y rest =>
      intro h
      rw [indexOfPair_cons₂] at h
      by_cases hxy : x = a ∧ y = b
      · simp [hxy] at h
        subst h
        simp [hxy.1, hxy.2]
      · simp [hxy] at h
        obtain ⟨p', hp', hpe⟩ := h
        subst hpe
        simpa using ih hp'

/-- A found index is the first occurrence. -/
theorem indexOfPair_min {a b p : Nat} :
    ∀ {l : List Nat}, indexOfPair a b l = some p →
      ∀ i, i < p → (l.drop i).take 2 ≠ [a, b] := by
  intro l
  induction l generalizing p with
  | nil => intro h; simp [indexOfPair] at h
  | cons x t ih =>
    cases t with
    | nil => intro h; simp [indexOfPair] at h
    | cons y rest =>
      intro h i hip
      rw [indexOfPair_cons₂] at h
      by_cases hxy : x = a ∧ y = b
      · simp [hxy] at h; omega
      · simp [hxy] at h
        obtain ⟨p', hp', hpe⟩ := h
        cases i with
        | zero =>
          intro hc
          simp at hc
          exact hxy ⟨hc.1, hc.2⟩
        | succ i' =>
          have : i' < p' := by omega
          simpa using ih hp' i' this

/-- When the pattern is absent it occurs nowhere. -/
theorem indexOfPair_none {a b : Nat} :
    ∀ {l : List Nat}, indexOfPair a b l = none →
      ∀ i, (l.drop i).take 2 ≠ [a, b] := by
  intro l
  induction l with
  | nil => intro _ i; cases i <;> simp
  | cons x t ih =>
    cases t with
    | nil =>
      intro _ i
      cases i with
      | zero => simp
      | succ i' => cases i' <;> simp
    | cons y rest =>
      intro h i
      rw [indexOfPair_cons₂] at h
      by_cases hxy : x = a ∧ y = b
      · simp [hxy] at h
      · simp [hxy] at h
        cases i with
        | zero =>
          intro hc
          simp at hc
          exact hxy ⟨hc.1, hc.2⟩
        | succ i' =>
          simpa using ih h i'

/-- An occurrence of the pattern forces a (no later) found index. -/
theorem indexOfPair_isSome_of_occ {a b : Nat} :
    ∀ {l : List Nat} {i : Nat}, (l.drop i).take 2 = [a, b] →
      ∃ p, indexOfPair a b l = some p ∧ p ≤ i := by
  intro l
  induction l with
  | nil => intro i h; cases i <;> simp at h
  | cons x t ih =>
    cases t with
    | nil =>
      intro i h
      cases i with
      | zero => simp at h
      | succ i' => cases i' <;> simp at h
    | cons y rest =>
      intro i h
      cases i with
      | zero =>
        simp at h
        exact ⟨0, by simp [indexOfPair_cons₂, h.1, h.2], le_refl 0⟩
      | succ i' =>
        simp at h
        obtain ⟨p', hp', hpi⟩ := ih h
        by_cases hxy : x = a ∧ y = b
        · exact ⟨0, by simp [indexOfPair_cons₂, hxy], by omega⟩
        · refine ⟨p' + 1, ?_, by omega⟩
          simp [indexOfPair_cons₂, hxy, hp']

/-- Appending on the right of a pattern-free list shifts the found index,
provided the pattern does not straddle the boundary. -/
theorem indexOfPair_append {a b : Nat} :
    ∀ {l : List Nat} (r : List Nat), indexOfPair a b l = none →
      (∀ x ∈ l.getLast?, ∀ y ∈ r.head?, ¬(x = a ∧ y = b)) →
      indexOfPair a b (l ++ r) = (indexOfPair a b r).map (· + l.length) := by
  intro l
  induction l with
  | nil =>
    intro r _ _
    cases h : indexOfPair a b r <;> simp [h]
  | cons x t ih =>
    cases t with
    | nil =>
      intro r _ hb
      cases r with
      | nil => simp [indexOfPair]
      | cons z r' =>
        have hxz : ¬(x = a ∧ z = b) := hb x (by simp) z (by simp)
        rw [List.cons_append, List.nil_append, indexOfPair_cons₂]
        cases h : indexOfPair a b (z :: r') <;> simp [hxz, h]
    | cons y t' =>
      intro r hl hb
      rw [indexOfPair_cons₂] at hl
      by_cases hxy : x = a ∧ y = b
      · simp [hxy] at hl
      · simp only [hxy, if_false, Option.map_eq_none'] at hl
        have hb' : ∀ u ∈ (y :: t').getLast?, ∀ v ∈ r.head?, ¬(u = a ∧ v = b) := by
          intro u hu v hv
          exact hb u (by rwa [List.getLast?_cons_cons]) v hv
        have := ih r hl hb'
        rw [List.cons_append, List.cons_append, indexOfPair_cons₂]
        rw [show (y :: t') ++ r = y :: (t' ++ r) from rfl] at this
        rw [this]
        cases h : indexOfPair a b r <;> simp [hxy, h, List.length_cons]
        omega

/-- Pattern found right at the junction: a pattern-free list followed by
the pattern itself locates it at the junction offset (the two pattern
bytes differ, so the junction cannot complete an earlier occurrence). -/
theorem indexOfPair_append_self {a b : Nat} (hab : a ≠ b) {l : List Nat}
    (t : List Nat) (hl : indexOfPair a b l = none) :
    indexOfPair a b (l ++ (a :: b :: t)) = some l.length := by
  rw [indexOfPair_append (a :: b :: t) hl]
  · simp [indexOfPair_cons₂]
  · intro x _ y hy
    simp at hy
    subst hy
    intro hc
    exact hab hc.2

/-- One iteration of the demux loop body on the suffix `s = data[i:]`:
locate the next SOI (relative offset `p`), then the next EOI strictly
after the SOI marker (relative offset `q` inside `s[p+2:]`).  Returns
`none` exactly when the Go loop hits one of its two `break`s. -/
def nextFrame (s : List Nat) : Option (Nat × Nat) :=
  match indexOfPair 255 216 s with
  | none => none
  | some p =>
    match indexOfPair 255 217 ((s.drop p).drop 2) with
    | none => none
    | some q => some (p, q)

theorem nextFrame_bound {s : List Nat} {p q : Nat}
    (h : nextFrame s = some (p, q)) : p + q + 4 ≤ s.length := by
  unfold nextFrame at h
  cases h1 : indexOfPair 255 216 s with
  | none => simp [h1] at h
  | some p' =>
    simp only [h1] at h
    cases h2 : indexOfPair 255 217 ((s.drop p').drop 2) with
    | none =>
      rw [List.drop_drop] at h2
      simp [h2] at h
    | some q' =>
      rw [List.drop_drop] at h2
      simp [h2] at h
      obtain ⟨hp, hq⟩ := h
      subst hp; subst hq
      have b1 := indexOfPair_bound h1
      have b2 := indexOfPair_bound h2
      simp [List.length_drop] at b2
      omega

theorem nextFrame_eq_none {s : List Nat}
    (h : indexOfPair 255 216 s = none) : nextFrame s = none := by
  simp [nextFrame, h]

theorem nextFrame_eq_none₂ {s : List Nat} {p : Nat}
    (h1 : indexOfPair 255 216 s = some p)
    (h2 : indexOfPair 255 217 ((s.drop p).drop 2) = none) :
    nextFrame s = none := by
  rw [List.drop_drop] at h2
  simp [nextFrame, h1, h2]

theorem nextFrame_eq_some {s : List Nat} {p q : Nat}
    (h1 : indexOfPair 255 216 s = some p)
    (h2 : indexOfPair 255 217 ((s.drop p).drop 2) = some q) :
    nextFrame s = some (p, q) := by
  rw [List.drop_drop] at h2
  simp [nextFrame, h1, h2]

/-- The scan loop of `splitJPEGFrames`, on the suffix `s = data[i:]`.
Each iteration finds SOI at relative offset `p`, EOI at relative offset
`p + 2 + q`, emits the slice `data[startIdx:endIdx]` (here
`(s.drop p).take (q + 4)`), and continues at the absolute cursor
`i = endIdx` (here the suffix `s.drop (p + q + 4)`). -/
def scanFrames (s : List Nat) : List (List Nat) :=
  match h : nextFrame s with
  | none => []
  | some (p, q) => (s.drop p).take (q + 4) :: scanFrames (s.drop (p + q + 4))
termination_by s.length
decreasing_by
  have hb := nextFrame_bound h
  simp [List.length_drop]
  omega

theorem scanFrames_of_none {s : List Nat} (h : nextFrame s = none) :
    scanFrames s = [] := by
  unfold scanFrames
  split
  · rfl
  · rename_i p q heq
    rw [h] at heq
    exact absurd heq (by simp)

theorem scanFrames_of_some {s : List Nat} {p q : Nat}
    (h : nextFrame s = some (p, q)) :
    scanFrames s = (s.drop p).take (q + 4) :: scanFrames (s.drop (p + q + 4)) := by
  rw [scanFrames.eq_def]
  split
  · rename_i heq
    rw [h] at heq
    exact absurd heq (by simp)
  · rename_i p' q' heq
    rw [h] at heq
    simp at heq
    obtain ⟨hp, hq⟩ := heq
    subst hp; subst hq
    rfl

/-- The boundary-scan (first pass) of `splitJPEGFramesConcurrent`, kept
with absolute offsets: from cursor `i` it produces the `framePos` list
`{start, end}` in scan order (the Go `index` field is the list position).
`start = i + p`, `end = i + p + q + 4` mirror `startIdx`/`endIdx`. -/
def scanPositionsAux (data : List Nat) (i : Nat) : List (Nat × Nat) :=
  match h : nextFrame (data.drop i) with
  | none => []
  | some (p, q) => (i + p, i + p + q + 4) :: scanPositionsAux data (i + p + q + 4)
termination_by data.length - i
decreasing_by
  have hb := nextFrame_bound h
  simp [List.length_drop] at hb
  omega

theorem scanPositionsAux_of_none {data : List Nat} {i : Nat}
    (h : nextFrame (data.drop i) = none) : scanPositionsAux data i = [] := by
  unfold scanPositionsAux
  split
  · rfl
  · rename_i p q heq
    rw [h] at heq
    exact absurd heq (by simp)

theorem scanPositionsAux_of_some {data : List Nat} {i p q : Nat}
    (h : nextFrame (data.drop i) = some (p, q)) :
    scanPositionsAux data i =
      (i + p, i + p + q + 4) :: scanPositionsAux data (i + p + q + 4) := by
  rw [scanPositionsAux.eq_def]
  split
  · rename_i heq
    rw [h] at heq
    exact absurd heq (by simp)
  · rename_i p' q' heq
    rw [h] at heq
    simp at heq
    obtain ⟨hp, hq⟩ := heq
    subst hp; subst hq
    rfl

/-- Sequential demuxer `splitJPEGFrames` (video_processor.go lines
165-201; byte-identical copy in the StreamProcessor, lines 210-246):
the scan's frames, or the error `"no valid JPEG frames found"` when the
scan emitted none. -/
def splitJPEGFrames (data : List Nat) : Except String (List (List Nat)) :=
  if scanFrames data = [] then .error "no valid JPEG frames found"
  else .ok (scanFrames data)

/-- Concurrent demuxer `splitJPEGFramesConcurrent` (video_processor.go
lines 204-277).  The first pass is `scanPositionsAux data 0`; the second
pass hands each `framePos` to a pool of `maxWorkers` goroutines, each of
which writes the copy `data[pos.start:pos.end]` into the pre-allocated
slot `frames[pos.index]`.  Every slot is written exactly once and the
pool is joined before returning, so for any pool size ≥ 1 the observable
result is the positions mapped to their slices, in scan order.
`maxWorkers` is retained as a parameter because a pool of size 0 would
never drain the job channel (the call would block forever). -/
def splitJPEGFramesConcurrent (maxWorkers : Nat) (data : List Nat) :
    Except String (List (List Nat)) :=
  if scanPositionsAux data 0 = [] then .error "no valid JPEG frames found"
  else .ok ((scanPositionsAux data 0).map
    fun pos => (data.drop pos.1).take (pos.2 - pos.1))

/-- Filler that the demuxer skips: it contains neither an SOI nor an EOI
marker pair. -/
def FillerOK (g : List Nat) : Prop :=
  indexOfPair 255 216 g = none ∧ indexOfPair 255 217 g = none

/-- A well-formed SOI/EOI-delimited JPEG image: it starts with the SOI
marker 0xFF 0xD8, ends with the EOI marker 0xFF 0xD9, and its interior
(`core`) contains no earlier EOI marker pair. -/
def WFJPEG (f : List Nat) : Prop :=
  ∃ core, f = 255 :: 216 :: (core ++ [255, 217]) ∧
    indexOfPair 255 217 core = none

theorem WFJPEG_take₂ {f : List Nat} (h : WFJPEG f) : f.take 2 = [255, 216] := by
  obtain ⟨core, hf, -⟩ := h
  subst hf
  rfl

theorem WFJPEG_lastTwo {f : List Nat} (h : WFJPEG f) :
    f.drop (f.length - 2) = [255, 217] := by
  obtain ⟨core, hf, -⟩ := h
  subst hf
  have hlen : (255 :: 216 :: (core ++ [255, 217])).length = core.length + 4 := by
    simp
  rw [hlen]
  have h2 : core.length + 4 - 2 = core.length + 2 := by omega
  rw [h2]
  show (core ++ [255, 217]).drop core.length = [255, 217]
  exact List.drop_left core [255, 217]

/-- Skipping pattern-free filler in front of an SOI changes nothing: the
scan finds the SOI just past the filler and proceeds identically. -/
theorem scanFrames_skip_filler {g : List Nat}
    (hg : indexOfPair 255 216 g = none) (t : List Nat) :
    scanFrames (g ++ (255 :: 216 :: t)) = scanFrames (255 :: 216 :: t) := by
  have hsoi : indexOfPair 255 216 (g ++ (255 :: 216 :: t)) = some g.length :=
    indexOfPair_append_self (by decide) t hg
  have hdropg : (g ++ (255 :: 216 :: t)).drop g.length = 255 :: 216 :: t :=
    List.drop_left g _
  have hsoi₀ : indexOfPair 255 216 (255 :: 216 :: t) = some 0 := by
    simp [indexOfPair_cons₂]
  cases he : indexOfPair 255 217 t with
  | none =>
    have h1 : nextFrame (g ++ (255 :: 216 :: t)) = none := by
      refine nextFrame_eq_none₂ hsoi ?_
      rw [hdropg]
      exact he
    have h2 : nextFrame (255 :: 216 :: t) = none := by
      refine nextFrame_eq_none₂ hsoi₀ ?_
      simpa using he
    rw [scanFrames_of_none h1, scanFrames_of_none h2]
  | some q =>
    have h1 : nextFrame (g ++ (255 :: 216 :: t)) = some (g.length, q) := by
      refine nextFrame_eq_some hsoi ?_
      rw [hdropg]
      exact he
    have h2 : nextFrame (255 :: 216 :: t) = some (0, q) := by
      refine nextFrame_eq_some hsoi₀ ?_
      simpa using he
    rw [scanFrames_of_some h1, scanFrames_of_some h2]
    congr 1
    · rw [hdropg]
      simp
    · have hd : (g ++ (255 :: 216 :: t)).drop (g.length + q + 4)
          = (255 :: 216 :: t).drop (q + 4) := by
        have : g.length + q + 4 = g.length + (q + 4) := by omega
        rw [this, ← List.drop_drop, hdropg]
      rw [hd]
      simp

/-- Consuming one well-formed frame at the head of the buffer: the scan
emits exactly that frame and continues right after it. -/
theorem scanFrames_consume_frame {f : List Nat} (hf : WFJPEG f)
    (rest : List Nat) :
    scanFrames (f ++ rest) = f :: scanFrames rest := by
  obtain ⟨core, hfe, hcore⟩ := hf
  subst hfe
  have hshape : (255 :: 216 :: (core ++ [255, 217])) ++ rest
      = 255 :: 216 :: (core ++ (255 :: 217 :: rest)) := by
    simp
  rw [hshape]
  have hsoi : indexOfPair 255 216 (255 :: 216 :: (core ++ (255 :: 217 :: rest)))
      = some 0 := by
    simp [indexOfPair_cons₂]
  have heoi : indexOfPair 255 217 (core ++ (255 :: 217 :: rest)) = some core.length :=
    indexOfPair_append_self (by decide) rest hcore
  have hn : nextFrame (255 :: 216 :: (core ++ (255 :: 217 :: rest)))
      = some (0, core.length) := by
    refine nextFrame_eq_some hsoi ?_
    simpa using heoi
  rw [scanFrames_of_some hn]
  congr 1
  · show ((255 :: 216 :: (core ++ (255 :: 217 :: rest))).drop 0).take (core.length + 4)
        = 255 :: 216 :: (core ++ [255, 217])
    rw [List.drop_zero]
    have : 255 :: 216 :: (core ++ (255 :: 217 :: rest))
        = (255 :: 216 :: (core ++ [255, 217])) ++ rest := by simp
    rw [this]
    have hlen : (255 :: 216 :: (core ++ [255, 217])).length = core.length + 4 := by
      simp
    rw [← hlen]
    exact List.take_left _ _
  · show scanFrames ((255 :: 216 :: (core ++ (255 :: 217 :: rest))).drop (0 + core.length + 4))
        = scanFrames rest
    congr 1
    have : 255 :: 216 :: (core ++ (255 :: 217 :: rest))
        = (255 :: 216 :: (core ++ [255, 217])) ++ rest := by simp
    rw [this]
    have hlen : (255 :: 216 :: (core ++ [255, 217])).length = core.length + 4 := by
      simp
    have h04 : 0 + core.length + 4 = (255 :: 216 :: (core ++ [255, 217])).length := by
      rw [hlen]; omega
    rw [h04]
    exact List.drop_left _ _

/-- Concatenation of demuxer input: interleaved (filler, frame) chunks
followed by trailing filler. -/
def jpegConcat (chunks : List (List Nat × List Nat)) (gEnd : List Nat) : List Nat :=
  (chunks.map fun c => c.1 ++ c.2).flatten ++ gEnd

/-- The scan on an interleaving of pattern-free filler and well-formed
frames recovers exactly the frames, in order. -/
theorem scanFrames_jpegConcat :
    ∀ (chunks : List (List Nat × List Nat)) (gEnd : List Nat),
      (∀ c ∈ chunks, FillerOK c.1 ∧ WFJPEG c.2) →
      indexOfPair 255 216 gEnd = none →
      scanFrames (jpegConcat chunks gEnd) = chunks.map (·.2) := by
  intro chunks
  induction chunks with
  | nil =>
    intro gEnd _ hEnd
    have : jpegConcat [] gEnd = gEnd := by simp [jpegConcat]
    rw [this, scanFrames_of_none (nextFrame_eq_none hEnd)]
    simp
  | cons c rest ih =>
    intro gEnd hall hEnd
    obtain ⟨hg, hf⟩ := hall c (by simp)
    obtain ⟨core, hfe, hcore⟩ := hf
    have hrest : ∀ d ∈ rest, FillerOK d.1 ∧ WFJPEG d.2 := by
      intro d hd
      exact hall d (by simp [hd])
    have hsplit : jpegConcat (c :: rest) gEnd
        = c.1 ++ (c.2 ++ jpegConcat rest gEnd) := by
      simp [jpegConcat]
    rw [hsplit]
    have hshape : c.2 ++ jpegConcat rest gEnd
        = 255 :: 216 :: ((core ++ [255, 217]) ++ jpegConcat rest gEnd) := by
      rw [hfe]; simp
    rw [hshape, scanFrames_skip_filler hg.1, ← hshape]
    rw [scanFrames_consume_frame ⟨core, hfe, hcore⟩]
    rw [ih gEnd hrest hEnd]
    simp

/-- Extracting the byte range of every scanned position yields exactly
the frames of the sequential scan of the same suffix (`n` is a fuel
bound on the remaining length, enabling strong induction). -/
theorem scanPositionsAux_map_extract (data : List Nat) :
    ∀ n i, data.length - i ≤ n →
      (scanPositionsAux data i).map (fun pos => (data.drop pos.1).take (pos.2 - pos.1))
        = scanFrames (data.drop i) := by
  intro n
  induction n with
  | zero =>
    intro i hi
    cases h : nextFrame (data.drop i) with
    | none => rw [scanPositionsAux_of_none h, scanFrames_of_none h]; rfl
    | some pq =>
      obtain ⟨p, q⟩ := pq
      have hb := nextFrame_bound h
      simp [List.length_drop] at hb
      omega
  | succ n ih =>
    intro i hi
    cases h : nextFrame (data.drop i) with
    | none => rw [scanPositionsAux_of_none h, scanFrames_of_none h]; rfl
    | some pq =>
      obtain ⟨p, q⟩ := pq
      have hb := nextFrame_bound h
      rw [List.length_drop] at hb
      rw [scanPositionsAux_of_some h, scanFrames_of_some h, List.map_cons]
      congr 1
      · show (data.drop (i + p)).take (i + p + q + 4 - (i + p))
            = ((data.drop i).drop p).take (q + 4)
        rw [List.drop_drop]
        congr 1
        omega
      · rw [ih (i + p + q + 4) (by omega), List.drop_drop]
        congr 2
        omega

/-- Bounds of every scanned frame position: it starts at or after the
cursor, spans at least the four marker bytes, and ends inside the
buffer. -/
theorem scanPositionsAux_bounds (data : List Nat) :
    ∀ n i, data.length - i ≤ n →
      ∀ pos ∈ scanPositionsAux data i,
        i ≤ pos.1 ∧ pos.1 + 4 ≤ pos.2 ∧ pos.2 ≤ data.length := by
  intro n
  induction n with
  | zero =>
    intro i hi pos hpos
    cases h : nextFrame (data.drop i) with
    | none => rw [scanPositionsAux_of_none h] at hpos; simp at hpos
    | some pq =>
      obtain ⟨p, q⟩ := pq
      have hb := nextFrame_bound h
      simp [List.length_drop] at hb
      omega
  | succ n ih =>
    intro i hi pos hpos
    cases h : nextFrame (data.drop i) with
    | none => rw [scanPositionsAux_of_none h] at hpos; simp at hpos
    | some pq =>
      obtain ⟨p, q⟩ := pq
      have hb := nextFrame_bound h
      rw [List.length_drop] at hb
      rw [scanPositionsAux_of_some h] at hpos
      rcases List.mem_cons.mp hpos with hhd | htl
      · subst hhd
        simp
        omega
      · have := ih (i + p + q + 4) (by omega) pos htl
        omega

/-- The concurrent demuxer agrees with the sequential one on every
input: same frames, same error. -/
theorem splitConcurrent_eq_sequential (maxWorkers : Nat) (data : List Nat) :
    splitJPEGFramesConcurrent maxWorkers data = splitJPEGFrames data := by
  have hmap := scanPositionsAux_map_extract data data.length 0 (by omega)
  rw [List.drop_zero] at hmap
  unfold splitJPEGFramesConcurrent splitJPEGFrames
  by_cases hp : scanPositionsAux data 0 = []
  · have hs : scanFrames data = [] := by rw [← hmap, hp]; rfl
    simp [hp, hs]
  · have hs : scanFrames data ≠ [] := by
      rw [← hmap]
      intro hc
      exact hp (List.map_eq_nil_iff.mp hc)
    simp [hp, hs, hmap]

/-- A two-byte window equality exposes the buffer's structure at that
offset. -/
theorem drop_of_take₂ {l : List Nat} {i a b : Nat}
    (h : (l.drop i).take 2 = [a, b]) :
    l.drop i = a :: b :: l.drop (i + 2) := by
  have hsplit := (List.take_append_drop 2 (l.drop i)).symm
  rw [h] at hsplit
  rw [List.drop_drop] at hsplit
  simpa using hsplit

/-- An EOI marker strictly after an SOI marker is in fact at least two
bytes after it: the byte right after 0xFF 0xD8 is 0xD8-adjacent 0xD8?
No — it is 0xD8 itself, which cannot open the 0xFF 0xD9 pair. -/
theorem soi_eoi_gap {data : List Nat} {i j : Nat} (hij : i < j)
    (hs : (data.drop i).take 2 = [255, 216])
    (he : (data.drop j).take 2 = [255, 217]) : i + 2 ≤ j := by
  by_contra hlt
  have hj : j = i + 1 := by omega
  subst hj
  have hdi := drop_of_take₂ hs
  have hd1 : data.drop (i + 1) = 216 :: data.drop (i + 2) := by
    have : data.drop (i + 1) = (data.drop i).drop 1 := by
      rw [List.drop_drop]
    rw [this, hdi]
    rfl
  rw [hd1] at he
  simp at he

/-- The scan emits no frame exactly when no SOI marker is followed
(strictly later) by an EOI marker. -/
theorem scanFrames_eq_nil_iff (data : List Nat) :
    scanFrames data = [] ↔
      ¬∃ i j, i < j ∧ (data.drop i).take 2 = [255, 216] ∧
        (data.drop j).take 2 = [255, 217] := by
  constructor
  · intro hnil hocc
    obtain ⟨i, j, hij, hs, he⟩ := hocc
    obtain ⟨p, hp, hpi⟩ := indexOfPair_isSome_of_occ hs
    have hgap : i + 2 ≤ j := soi_eoi_gap hij hs he
    have hocc₂ : (((data.drop p).drop 2).drop (j - (p + 2))).take 2 = [255, 217] := by
      rw [List.drop_drop, List.drop_drop]
      have harith : p + (2 + (j - (p + 2))) = j := by omega
      rw [harith]
      exact he
    obtain ⟨q, hq, -⟩ := indexOfPair_isSome_of_occ hocc₂
    rw [scanFrames_of_some (nextFrame_eq_some hp hq)] at hnil
    exact absurd hnil (by simp)
  · intro hnocc
    cases h : nextFrame data with
    | none => exact scanFrames_of_none h
    | some pq =>
      obtain ⟨p, q⟩ := pq
      exfalso
      apply hnocc
      unfold nextFrame at h
      cases h1 : indexOfPair 255 216 data with
      | none => simp [h1] at h
      | some p' =>
        simp only [h1] at h
        cases h2 : indexOfPair 255 217 ((data.drop p').drop 2) with
        | none =>
          rw [List.drop_drop] at h2
          simp [h2] at h
        | some q' =>
          rw [List.drop_drop] at h2
          refine ⟨p', p' + 2 + q', by omega, indexOfPair_pair h1, ?_⟩
          have h3 := indexOfPair_pair h2
          rw [List.drop_drop] at h3
          exact h3

/-- Value of one standard-base64 alphabet character, modelling Go
`encoding/base64.StdEncoding`; `none` for a character outside the
alphabet. -/
def b64Val (c : Char) : Option Nat :=
  if 'A' ≤ c ∧ c ≤ 'Z' then some (c.toNat - 65)
  else if 'a' ≤ c ∧ c ≤ 'z' then some (c.toNat - 97 + 26)
  else if '0' ≤ c ∧ c ≤ '9' then some (c.toNat - 48 + 52)
  else if c = '+' then some 62
  else if c = '/' then some 63
  else none

/-- Standard (padded) base64 decoding of a character list, modelling Go
`base64.StdEncoding.DecodeString` on inputs free of CR/LF: groups of
four characters, `=` padding only closing the final group, `none`
(Go: `CorruptInputError`) on any malformed input. -/
def decodeB64Chars : List Char → Option (List Nat)
  | [] => some []
  | a :: b :: c :: d :: rest =>
    match b64Val a, b64Val b with
    | some va, some vb =>
      if c = '=' then
        if d = '=' ∧ rest = [] then some [va * 4 + vb / 16] else none
      else
        match b64Val c with
        | some vc =>
          if d = '=' then
            if rest = [] then some [va * 4 + vb / 16, (vb % 16) * 16 + vc / 4]
            else none
          else
            match b64Val d with
            | some vd =>
              (decodeB64Chars rest).map
                (fun bs => (va * 4 + vb / 16) :: ((vb % 16) * 16 + vc / 4) ::
                  ((vc % 4) * 64 + vd) :: bs)
            | none => none
        | none => none
    | _, _ => none
  | _ => none

/-- Base64 decoding of a string. -/
def decodeBase64 (s : String) : Option (List Nat) :=
  decodeB64Chars s.data

/-- StreamProcessor state (StreamProcessor struct of the Go source):
configuration fields plus the lazily created temp-directory path.  The
mutex only serializes access and carries no state of its own. -/
structure StreamProcessor where
  FPS : Int
  TargetWidth : Int
  TargetHeight : Int
  Quality : Int
  SPS : String
  PPS : String
  tempDir : String
deriving DecidableEq

/-- Constructor `NewStreamProcessor` with its documented defaults. -/
def NewStreamProcessor : StreamProcessor :=
  { FPS := 2, TargetWidth := 1120, TargetHeight := 1120, Quality := 90,
    SPS := "Z0LADJoFAAABMA==", PPS := "aM48gA==", tempDir := "" }

/-- Setter `WithResolution`: when either dimension is not divisible by
28, both are recomputed as `((v + 13) / 28) * 28` (the code comment
calls this rounding to the nearest multiple of 28). -/
def WithResolution (sp : StreamProcessor) (width height : Int) : StreamProcessor :=
  if width % 28 ≠ 0 ∨ height % 28 ≠ 0 then
    { sp with TargetWidth := ((width + 13) / 28) * 28,
              TargetHeight := ((height + 13) / 28) * 28 }
  else
    { sp with TargetWidth := width, TargetHeight := height }

/-- Setter `WithQuality`: clamps into [1, 100]. -/
def WithQuality (sp : StreamProcessor) (quality : Int) : StreamProcessor :=
  if quality < 1 then { sp with Quality := 1 }
  else if quality > 100 then { sp with Quality := 100 }
  else { sp with Quality := quality }

/-- Quality-to-qscale conversion at the top of `extractFramesFromH264`:
Go computes `31 - int(float64(Quality-1)/99.0*29.0)` and then clamps to
[2, 31].  For 1 ≤ Quality ≤ 100 the float64 expression carries a
relative error below 2⁻⁵⁰ while the exact value 29(Quality−1)/99 is
never closer than 1/99 to an integer other than at Quality = 1 and
Quality = 100 where it is exact, so the `int` truncation equals the
exact floor ⌊29(Quality−1)/99⌋, which the integer division below
computes. -/
def qscaleOf (quality : Int) : Int :=
  if (31 - 29 * (quality - 1) / 99 : Int) < 2 then 2
  else if (31 - 29 * (quality - 1) / 99 : Int) > 31 then 31
  else 31 - 29 * (quality - 1) / 99

/-- The qscale map exactly as the specification words it: a clamp of a
rounded linear expression (round to nearest).  Kept separate from
`qscaleOf` so the two can be compared. -/
def qscaleSpecRound (quality : Int) : Int :=
  max 2 (min 31 (round ((31 : ℚ) - (quality - 1) / 99 * 29)))

/-- The H.264 Annex-B start code 0x00000001. -/
def startCode : List Nat := [0, 0, 0, 1]

/-- NAL injection `injectSPSPPS` (StreamProcessor file, lines 134-164):
decode the configured base64 SPS and PPS and prepend
`startCode ++ SPS ++ startCode ++ PPS` to the raw data; fail when either
parameter set does not decode. -/
def injectSPSPPS (sp : StreamProcessor) (h264Data : List Nat) :
    Except String (List Nat) :=
  match decodeBase64 sp.SPS with
  | none => .error "invalid SPS"
  | some spsData =>
    match decodeBase64 sp.PPS with
    | none => .error "invalid PPS"
    | some ppsData =>
      .ok (startCode ++ spsData ++ startCode ++ ppsData ++ h264Data)

/-- Go `int(x)` conversion of the probed duration: truncation toward
zero. -/
def goTrunc (q : ℚ) : Int :=
  if q < 0 then -(⌊-q⌋) else ⌊q⌋

/-- `ExtractFramesWithContext` (video_processor.go lines 72-110) after a
successful ffprobe: with probed `duration`, the extractor computes
`totalFrames = int(duration) * FPS` and fails with
"video too short or invalid" when it is zero, before the decode
subprocess would run; otherwise it demuxes the decoder's stdout with the
concurrent splitter.  `decodeOutput` stands for that stdout; the early
error branch never consults it. -/
def ExtractFramesWithContext (fps : Int) (maxWorkers : Nat) (duration : ℚ)
    (decodeOutput : List Nat) : Except String (List (List Nat)) :=
  if goTrunc duration * fps = 0 then .error "video too short or invalid"
  else splitJPEGFramesConcurrent maxWorkers decodeOutput

/-- `Cleanup` (StreamProcessor file, lines 346-356).  `rm` stands for
`os.RemoveAll` (`none` = nil error); the field is reset to the empty
string regardless of the removal's outcome. -/
def Cleanup (rm : String → Option String) (sp : StreamProcessor) :
    StreamProcessor × Option String :=
  if sp.tempDir ≠ "" then ({ sp with tempDir := "" }, rm sp.tempDir)
  else (sp, none)

/-- Observable events of the streaming worker of
`StreamFrameExtractor.Start` (StreamProcessor file, lines 284-327), in
program order: frames published on the frame channel, per-chunk failures
published on the error channel, and the final closing of both channels
(the two deferred `close` calls). -/
inductive StreamEvent (E F : Type) where
  | frame (f : F)
  | failure (e : E)
  | queuesClosed
deriving DecidableEq

/-- Events produced for one non-empty chunk: one failure event when the
injection/decode/demux pipeline fails, otherwise one frame event per
extracted frame, in order. -/
def chunkEvents {E F : Type} (proc : List Nat → Except E (List F))
    (c : List Nat) : List (StreamEvent E F) :=
  match proc c with
  | .error e => [.failure e]
  | .ok fs => fs.map .frame

/-- The worker loop of `Start`, modelled as a sequential step relation
over the list of successful reads the source yields (each element one
chunk; the list's end is the source's end-of-input).  `proc` is the
per-chunk `ProcessH264StreamWithContext` pipeline; `cancel k` tells
whether the cancellation context is observed as done before iteration
`k` (the loop's `select`).  On cancellation and on end-of-input alike
the deferred closes emit `queuesClosed` and the worker exits; a chunk
read with `n = 0` and no error is skipped by the `n > 0` guard. -/
def workerLoop {E F : Type} (proc : List Nat → Except E (List F))
    (cancel : Nat → Bool) : Nat → List (List Nat) → List (StreamEvent E F)
  | _, [] => [.queuesClosed]
  | k, c :: rest =>
    if cancel k then [.queuesClosed]
    else if c.isEmpty then workerLoop proc cancel (k + 1) rest
    else chunkEvents proc c ++ workerLoop proc cancel (k + 1) rest

/-- The worker's event stream always ends with the closing of both
queues, whatever the cancellation pattern. -/
theorem workerLoop_getLast {E F : Type} (proc : List Nat → Except E (List F))
    (cancel : Nat → Bool) :
    ∀ (reads : List (List Nat)) (k : Nat),
      (workerLoop proc cancel k reads).getLast? = some .queuesClosed := by
  intro reads
  induction reads with
  | nil => intro k; rfl
  | cons c rest ih =>
    intro k
    show (workerLoop proc cancel k (c :: rest)).getLast? = some .queuesClosed
    unfold workerLoop
    by_cases hc : cancel k
    · simp [hc]
    · rw [if_neg hc]
      by_cases he : c.isEmpty
      · rw [if_pos he]
        exact ih (k + 1)
      · rw [if_neg he]
        rw [List.getLast?_append]
        rw [ih (k + 1)]
        rfl

/-- Without cancellation the worker processes every non-empty chunk in
order, emitting that chunk's events, and finally closes the queues. -/
theorem workerLoop_no_cancel {E F : Type} (proc : List Nat → Except E (List F)) :
    ∀ (reads : List (List Nat)) (k : Nat),
      workerLoop proc (fun _ => false) k reads =
        ((reads.filter fun c => !c.isEmpty).flatMap (chunkEvents proc))
          ++ [.queuesClosed] := by
  intro reads
  induction reads with
  | nil => intro k; rfl
  | cons c rest ih =>
    intro k
    unfold workerLoop
    rw [if_neg (by simp)]
    by_cases he : c.isEmpty
    · rw [if_pos he, ih (k + 1)]
      rw [List.filter_cons_of_neg (by simp [he])]
    · rw [if_neg he, ih (k + 1)]
      rw [List.filter_cons_of_pos (by simp [he])]
      rw [List.flatMap_cons, List.append_assoc]

/-- Claim C2: for every input buffer and every worker-pool size
`maxWorkers ≥ 1`, the concurrent demuxer returns a frame list
byte-for-byte identical to the sequential one, and each fails exactly
when the other does (the results, errors included, are equal). -/
theorem claim_C2 (maxWorkers : Nat) (hmw : 1 ≤ maxWorkers) (data : List Nat) :
    splitJPEGFramesConcurrent maxWorkers data = splitJPEGFrames data ∧
    ((∃ e, splitJPEGFramesConcurrent maxWorkers data = .error e) ↔
      (∃ e, splitJPEGFrames data = .error e)) := by
  have h := splitConcurrent_eq_sequential maxWorkers data
  exact ⟨h, by rw [h]⟩

theorem claim_C2_witness :
    splitJPEGFramesConcurrent 2 [255, 216, 255, 217] =
      splitJPEGFrames [255, 216, 255, 217] :=
  (claim_C2 2 (by decide) [255, 216, 255, 217]).1

/-- Claim C3: when both configured parameter sets decode from base64,
`injectSPSPPS` returns exactly
`startCode ++ SPS ++ startCode ++ PPS ++ input`, whose length is
`8 + |SPS| + |PPS| + |input|`; when either fails to decode it returns an
invalid-parameter-set error and no buffer. -/
theorem claim_C3 (sp : StreamProcessor) (h264Data : List Nat) :
    (∀ spsData ppsData, decodeBase64 sp.SPS = some spsData →
      decodeBase64 sp.PPS = some ppsData →
      injectSPSPPS sp h264Data =
        .ok (startCode ++ spsData ++ startCode ++ ppsData ++ h264Data) ∧
      (startCode ++ spsData ++ startCode ++ ppsData ++ h264Data).length =
        8 + spsData.length + ppsData.length + h264Data.length) ∧
    (decodeBase64 sp.SPS = none ∨ decodeBase64 sp.PPS = none →
      ∃ e, injectSPSPPS sp h264Data = .error e) := by
  constructor
  · intro spsData ppsData hs hp
    constructor
    · unfold injectSPSPPS
      rw [hs, hp]
    · simp [startCode]
      omega
  · intro hbad
    unfold injectSPSPPS
    rcases hbad with hs | hp
    · rw [hs]
      exact ⟨"invalid SPS", rfl⟩
    · cases hs : decodeBase64 sp.SPS with
      | none => exact ⟨"invalid SPS", rfl⟩
      | some spsData =>
        rw [hp]
        exact ⟨"invalid PPS", rfl⟩

theorem claim_C3_witness :
    injectSPSPPS NewStreamProcessor [1, 2, 3] =
      .ok (startCode ++ [103, 66, 192, 12, 154, 5, 0, 0, 1, 48] ++
        startCode ++ [104, 206, 60, 128] ++ [1, 2, 3]) ∧
    (startCode ++ [103, 66, 192, 12, 154, 5, 0, 0, 1, 48] ++
        startCode ++ [104, 206, 60, 128] ++ [1, 2, 3]).length =
      8 + 10 + 4 + 3 :=
  (claim_C3 NewStreamProcessor [1, 2, 3]).1
    [103, 66, 192, 12, 154, 5, 0, 0, 1, 48] [104, 206, 60, 128]
    (by decide) (by decide)

/-- Claim C9: whenever the probed duration and FPS give
`int(duration) * FPS = 0`, frame extraction fails with
"video too short or invalid", and the result is independent of whatever
the decode subprocess would have produced (it is never invoked). -/
theorem claim_C9 (fps : Int) (maxWorkers : Nat) (duration : ℚ)
    (h : goTrunc duration * fps = 0) (decodeOutput decodeOutput' : List Nat) :
    ExtractFramesWithContext fps maxWorkers duration decodeOutput =
      .error "video too short or invalid" ∧
    ExtractFramesWithContext fps maxWorkers duration decodeOutput =
      ExtractFramesWithContext fps maxWorkers duration decodeOutput' := by
  unfold ExtractFramesWithContext
  rw [if_pos h, if_pos h]
  exact ⟨rfl, rfl⟩

theorem claim_C9_witness :
    ExtractFramesWithContext 2 4 (1/2) [255, 216, 255, 217] =
      .error "video too short or invalid" := by
  have hz : goTrunc (1/2) * 2 = 0 := by
    unfold goTrunc
    rw [if_neg (by norm_num)]
    norm_num
  exact (claim_C9 2 4 (1/2) hz [255, 216, 255, 217] []).1

/-- Claim C10: `Cleanup` is idempotent on the processor state: after one
call the temp-directory field is empty, and any call made while it is
already empty returns a nil error and leaves the whole state
unchanged. -/
theorem claim_C10 (rm : String → Option String) (sp : StreamProcessor) :
    (Cleanup rm sp).1.tempDir = "" ∧
    (sp.tempDir = "" → Cleanup rm sp = (sp, none)) ∧
    Cleanup rm (Cleanup rm sp).1 = ((Cleanup rm sp).1, none) := by
  unfold Cleanup
  by_cases h : sp.tempDir = ""
  · simp [h]
  · simp [h]

theorem claim_C10_witness :
    Cleanup (fun _ => none) NewStreamProcessor = (NewStreamProcessor, none) :=
  (claim_C10 (fun _ => none) NewStreamProcessor).2.1 rfl

/-- Claim C4: the demuxer returns the no-frames-found error exactly when
no SOI marker is followed strictly later by an EOI marker, and a
successful demux result is never an empty frame list. -/
theorem claim_C4 (data : List Nat) :
    (splitJPEGFrames data = .error "no valid JPEG frames found" ↔
      ¬∃ i j, i < j ∧ (data.drop i).take 2 = [255, 216] ∧
        (data.drop j).take 2 = [255, 217]) ∧
    (∀ frames, splitJPEGFrames data = .ok frames → frames ≠ []) := by
  constructor
  · unfold splitJPEGFrames
    by_cases h : scanFrames data = []
    · rw [if_pos h]
      simp only [true_iff]
      exact (scanFrames_eq_nil_iff data).mp h
    · rw [if_neg h]
      constructor
      · intro hc
        exact absurd hc (by simp)
      · intro hnocc
        exact absurd ((scanFrames_eq_nil_iff data).mpr hnocc) h
  · intro frames hok
    unfold splitJPEGFrames at hok
    by_cases h : scanFrames data = []
    · rw [if_pos h] at hok
      exact absurd hok (by simp)
    · rw [if_neg h] at hok
      simp at hok
      rw [← hok]
      exact h

theorem claim_C4_witness :
    ¬∃ i j, i < j ∧ (([0] : List Nat).drop i).take 2 = [255, 216] ∧
      (([0] : List Nat).drop j).take 2 = [255, 217] := by
  apply (claim_C4 [0]).1.mp
  unfold splitJPEGFrames
  rw [scanFrames_of_none (by decide)]
  rfl

/-- Claim C5 counterexample: at stored quality 3 the code's qscale is
31 (truncation of 0.586 is 0), while the claimed
`clamp(round(31 − (q−1)/99·29), 2, 31)` is 30 (31 − 0.586 rounds to
30), so the claimed formula does not match the code. -/
theorem claim_C5_counterexample : qscaleOf 3 = 31 ∧ qscaleSpecRound 3 = 30 := by
  constructor
  · decide
  · unfold qscaleSpecRound
    norm_num [round_eq]

/-- Claim C5 (amended): `WithQuality` clamps every argument into
[1, 100] (0 ↦ 1, 150 ↦ 100, 90 ↦ 90), and for stored quality
1 ≤ q ≤ 100 the qscale passed to the encoder is
`clamp(31 − ⌊(q−1)·29/99⌋, 2, 31)` — the linear map with truncation
rather than rounding to nearest — with q = 1 ↦ 31, q = 100 ↦ 2, and
qscale monotonically non-increasing in q. -/
theorem claim_C5_amended :
    (∀ sp q, 1 ≤ (WithQuality sp q).Quality ∧ (WithQuality sp q).Quality ≤ 100) ∧
    (∀ sp, (WithQuality sp 0).Quality = 1 ∧ (WithQuality sp 150).Quality = 100 ∧
      (WithQuality sp 90).Quality = 90) ∧
    (∀ q : Int, 1 ≤ q → q ≤ 100 →
      qscaleOf q = max 2 (min 31 (31 - 29 * (q - 1) / 99))) ∧
    qscaleOf 1 = 31 ∧ qscaleOf 100 = 2 ∧
    (∀ a b : Int, 1 ≤ a → a ≤ b → b ≤ 100 → qscaleOf b ≤ qscaleOf a) := by
  refine ⟨?_, ?_, ?_, by decide, by decide, ?_⟩
  · intro sp q
    unfold WithQuality
    by_cases h1 : q < 1
    · simp [h1]
    · by_cases h2 : q > 100
      · simp [h1, h2]
      · simp [h1, h2]
        omega
  · intro sp
    exact ⟨rfl, rfl, rfl⟩
  · intro q h1 h100
    unfold qscaleOf
    omega
  · intro a b h1 hab h100
    have hdiv : 29 * (a - 1) / 99 ≤ 29 * (b - 1) / 99 :=
      Int.ediv_le_ediv (by norm_num) (by omega)
    unfold qscaleOf
    omega

theorem claim_C5_amended_witness :
    qscaleOf 100 ≤ qscaleOf 2 :=
  claim_C5_amended.2.2.2.2.2 2 100 (by decide) (by decide) (by decide)

/-- Width stored by `WithResolution`, as a scalar equation. -/
theorem withResolution_width (sp : StreamProcessor) (w h : Int) :
    (WithResolution sp w h).TargetWidth =
      if w % 28 ≠ 0 ∨ h % 28 ≠ 0 then ((w + 13) / 28) * 28 else w := by
  unfold WithResolution
  by_cases hc : w % 28 ≠ 0 ∨ h % 28 ≠ 0
  · rw [if_pos hc, if_pos hc]
  · rw [if_neg hc, if_neg hc]

/-- Height stored by `WithResolution`, as a scalar equation. -/
theorem withResolution_height (sp : StreamProcessor) (w h : Int) :
    (WithResolution sp w h).TargetHeight =
      if w % 28 ≠ 0 ∨ h % 28 ≠ 0 then ((h + 13) / 28) * 28 else h := by
  unfold WithResolution
  by_cases hc : w % 28 ≠ 0 ∨ h % 28 ≠ 0
  · rw [if_pos hc, if_pos hc]
  · rw [if_neg hc, if_neg hc]

/-- Claim C6 counterexample: `WithResolution 29 29` stores width 28,
which is strictly below the requested 29, so the target is not the
smallest multiple of 28 greater than or equal to the argument (that
would be 56): the code rounds to the nearest multiple, not up. -/
theorem claim_C6_counterexample :
    (WithResolution NewStreamProcessor 29 29).TargetWidth = 28 ∧
    ¬(29 ≤ (WithResolution NewStreamProcessor 29 29).TargetWidth) := by
  constructor <;> decide

/-- Claim C6 (amended): for positive arguments `WithResolution` sets
each target dimension to `((v + 13) / 28) · 28`, the multiple of 28
nearest to the requested value with ties rounded down (characterised by
`v − 14 ≤ target ≤ v + 13` and divisibility); the examples 100 ↦ 112
and 50 ↦ 56 hold, and arguments already divisible by 28 are left
unchanged. -/
theorem claim_C6_amended (sp : StreamProcessor) (w h : Int)
    (hw : 1 ≤ w) (hh : 1 ≤ h) :
    (WithResolution sp w h).TargetWidth % 28 = 0 ∧
    (WithResolution sp w h).TargetHeight % 28 = 0 ∧
    (w % 28 = 0 ∧ h % 28 = 0 →
      (WithResolution sp w h).TargetWidth = w ∧
      (WithResolution sp w h).TargetHeight = h) ∧
    w ≤ (WithResolution sp w h).TargetWidth + 14 ∧
    (WithResolution sp w h).TargetWidth ≤ w + 13 ∧
    h ≤ (WithResolution sp w h).TargetHeight + 14 ∧
    (WithResolution sp w h).TargetHeight ≤ h + 13 ∧
    (WithResolution sp 100 50).TargetWidth = 112 ∧
    (WithResolution sp 100 50).TargetHeight = 56 ∧
    (WithResolution sp 1120 1120).TargetWidth = 1120 ∧
    (WithResolution sp 1120 1120).TargetHeight = 1120 := by
  simp only [withResolution_width, withResolution_height]
  refine ⟨?_, ?_, ?_, ?_, ?_, ?_, ?_, by norm_num, by norm_num,
    by norm_num, by norm_num⟩
  · by_cases hc : w % 28 ≠ 0 ∨ h % 28 ≠ 0
    · rw [if_pos hc]; omega
    · rw [if_neg hc]
      rcases not_or.mp hc with ⟨h1, h2⟩
      omega
  · by_cases hc : w % 28 ≠ 0 ∨ h % 28 ≠ 0
    · rw [if_pos hc]; omega
    · rw [if_neg hc]
      rcases not_or.mp hc with ⟨h1, h2⟩
      omega
  · intro hz
    have hc : ¬(w % 28 ≠ 0 ∨ h % 28 ≠ 0) := by
      push_neg
      exact hz
    rw [if_neg hc, if_neg hc]
    exact ⟨rfl, rfl⟩
  · by_cases hc : w % 28 ≠ 0 ∨ h % 28 ≠ 0
    · rw [if_pos hc]; omega
    · rw [if_neg hc]; omega
  · by_cases hc : w % 28 ≠ 0 ∨ h % 28 ≠ 0
    · rw [if_pos hc]; omega
    · rw [if_neg hc]; omega
  · by_cases hc : w % 28 ≠ 0 ∨ h % 28 ≠ 0
    · rw [if_pos hc]; omega
    · rw [if_neg hc]; omega
  · by_cases hc : w % 28 ≠ 0 ∨ h % 28 ≠ 0
    · rw [if_pos hc]; omega
    · rw [if_neg hc]; omega

theorem claim_C6_amended_witness :
    (WithResolution NewStreamProcessor 100 50).TargetWidth = 112 ∧
    (WithResolution NewStreamProcessor 100 50).TargetHeight = 56 :=
  ⟨(claim_C6_amended NewStreamProcessor 100 50 (by decide) (by decide)).2.2.2.2.2.2.2.1,
   (claim_C6_amended NewStreamProcessor 100 50 (by decide) (by decide)).2.2.2.2.2.2.2.2.1⟩

/-- Claim C7: in the streaming worker loop, modelled as a sequential
step relation over the reads the source yields, every non-empty chunk
goes through the per-chunk pipeline (yielding its frames in order); a
chunk whose processing fails contributes exactly one error event and the
loop continues with the next chunk; and on end-of-input or cancellation
the event stream ends with the closing of both output queues. -/
theorem claim_C7 {E F : Type} (proc : List Nat → Except E (List F))
    (cancel : Nat → Bool) (k : Nat) (reads : List (List Nat)) :
    (workerLoop proc cancel k reads).getLast? = some .queuesClosed ∧
    (workerLoop proc (fun _ => false) 0 reads =
      ((reads.filter fun c => !c.isEmpty).flatMap (chunkEvents proc))
        ++ [.queuesClosed]) ∧
    (∀ c, c ≠ [] → ∀ e, proc c = .error e →
      chunkEvents proc c = [.failure e]) ∧
    (∀ c fs, proc c = .ok fs → chunkEvents proc c = fs.map .frame) := by
  refine ⟨workerLoop_getLast proc cancel reads k,
    workerLoop_no_cancel proc reads 0, ?_, ?_⟩
  · intro c _ e he
    unfold chunkEvents
    rw [he]
  · intro c fs hf
    unfold chunkEvents
    rw [hf]

theorem claim_C7_witness :
    chunkEvents (E := Nat) (F := Nat)
      (fun c => if c = [2] then .error 7 else .ok [c.length]) [2] =
      [.failure 7] :=
  (claim_C7 (fun c => if c = [2] then .error 7 else .ok [c.length])
      (fun _ => false) 0 [[1], [2], [3]]).2.2.1 [2] (by decide) 7 rfl

/-- Concrete boundary scan of a single minimal JPEG starting at offset
0. -/
theorem scanPositionsAux_example :
    scanPositionsAux [255, 216, 255, 217] 0 = [(0, 4)] := by
  have h4 : scanPositionsAux [255, 216, 255, 217] 4 = [] :=
    scanPositionsAux_of_none (by decide)
  rw [scanPositionsAux_of_some
    (show nextFrame (([255, 216, 255, 217] : List Nat).drop 0) = some (0, 0)
      by decide)]
  simp [h4]

/-- Claim C8 counterexample: on the buffer consisting of one minimal
JPEG, the boundary scan produces the frame position (0, 4), whose
startOffset is 0 and hence not strictly positive as the claim
requires. -/
theorem claim_C8_counterexample :
    scanPositionsAux [255, 216, 255, 217] 0 = [(0, 4)] ∧ ¬(0 < 0) :=
  ⟨scanPositionsAux_example, by omega⟩

/-- Claim C8 (amended): every frame position of the concurrent
demuxer's boundary scan satisfies `endOffset ≥ startOffset + 4 > startOffset ≥ 0`
and ends inside the buffer; the start may be 0 (when the first SOI is at
the very beginning), so `startOffset > 0` does not hold in general. -/
theorem claim_C8_amended (data : List Nat) (pos : Nat × Nat)
    (hpos : pos ∈ scanPositionsAux data 0) :
    pos.1 + 4 ≤ pos.2 ∧ pos.2 ≤ data.length := by
  have h := scanPositionsAux_bounds data data.length 0 (by omega) pos hpos
  exact ⟨h.2.1, h.2.2⟩

theorem claim_C8_amended_witness :
    (0 : Nat) + 4 ≤ 4 ∧ 4 ≤ ([255, 216, 255, 217] : List Nat).length :=
  claim_C8_amended [255, 216, 255, 217] (0, 4)
    (by rw [scanPositionsAux_example]; exact List.mem_singleton.mpr rfl)

/-- Claim C1 counterexample: the buffer [1, 2, 3] contains exactly zero
well-formed JPEGs interleaved with marker-free filler (N = 0), yet both
demux variants return the no-frames error instead of a zero-frame frame
list, so the claim fails at N = 0. -/
theorem claim_C1_counterexample :
    FillerOK [1, 2, 3] ∧
    splitJPEGFrames (jpegConcat [] [1, 2, 3]) =
      .error "no valid JPEG frames found" ∧
    splitJPEGFramesConcurrent 1 (jpegConcat [] [1, 2, 3]) =
      .error "no valid JPEG frames found" := by
  refine ⟨⟨by decide, by decide⟩, ?_, ?_⟩
  · show splitJPEGFrames [1, 2, 3] = _
    unfold splitJPEGFrames
    rw [scanFrames_of_none (by decide)]
    rfl
  · show splitJPEGFramesConcurrent 1 [1, 2, 3] = _
    unfold splitJPEGFramesConcurrent
    rw [scanPositionsAux_of_none (by decide)]
    rfl

/-- Claim C1 (amended): for every buffer made of N ≥ 1 well-formed
SOI/EOI-delimited JPEGs interleaved with arbitrary marker-free filler,
both demux variants (any pool size ≥ 1) return exactly those N frames in
order of appearance, each starting with 0xFF 0xD8 and ending with
0xFF 0xD9; for N = 0 both variants return the no-frames error instead of
an empty success. -/
theorem claim_C1_amended (chunks : List (List Nat × List Nat)) (gEnd : List Nat)
    (hne : chunks ≠ [])
    (hch : ∀ c ∈ chunks, FillerOK c.1 ∧ WFJPEG c.2)
    (hend : FillerOK gEnd) (maxWorkers : Nat) (hmw : 1 ≤ maxWorkers) :
    splitJPEGFrames (jpegConcat chunks gEnd) = .ok (chunks.map (·.2)) ∧
    splitJPEGFramesConcurrent maxWorkers (jpegConcat chunks gEnd) =
      .ok (chunks.map (·.2)) ∧
    (chunks.map (·.2)).length = chunks.length ∧
    (∀ f ∈ chunks.map (·.2),
      f.take 2 = [255, 216] ∧ f.drop (f.length - 2) = [255, 217]) := by
  have hscan := scanFrames_jpegConcat chunks gEnd hch hend.1
  have hne' : chunks.map (·.2) ≠ [] := by
    intro hc
    exact hne (List.map_eq_nil_iff.mp hc)
  have hseq : splitJPEGFrames (jpegConcat chunks gEnd) = .ok (chunks.map (·.2)) := by
    unfold splitJPEGFrames
    rw [hscan, if_neg hne']
  refine ⟨hseq, ?_, by simp, ?_⟩
  · rw [splitConcurrent_eq_sequential]
    exact hseq
  · intro f hf
    obtain ⟨c, hc, hcf⟩ := List.mem_map.mp hf
    have hwf := (hch c hc).2
    subst hcf
    exact ⟨WFJPEG_take₂ hwf, WFJPEG_lastTwo hwf⟩

theorem claim_C1_amended_witness :
    splitJPEGFrames (jpegConcat [([7], [255, 216, 9, 255, 217])] [3, 4]) =
      .ok [[255, 216, 9, 255, 217]] ∧
    splitJPEGFramesConcurrent 1 (jpegConcat [([7], [255, 216, 9, 255, 217])] [3, 4]) =
      .ok [[255, 216, 9, 255, 217]] ∧
    ([[255, 216, 9, 255, 217]] : List (List Nat)).length = 1 ∧
    (∀ f ∈ ([[255, 216, 9, 255, 217]] : List (List Nat)),
      f.take 2 = [255, 216] ∧ f.drop (f.length - 2) = [255, 217]) := by
  have h := claim_C1_amended [([7], [255, 216, 9, 255, 217])] [3, 4]
    (by decide)
    (by
      intro c hc
      rw [List.mem_singleton] at hc
      subst hc
      exact ⟨⟨by decide, by decide⟩, ⟨[9], rfl, rfl⟩⟩)
    ⟨by decide, by decide⟩ 1 (by decide)
  exact h

end ZhipuSDK
